import Mathlib

/-!
# Shallow embedding of `github_releases.py`

The script fetches the releases of a GitHub repository, filters them by
publication date, optional package-name tag convention and prerelease
status, and writes `tag, date` lines to a file.

Modelling conventions used throughout this file:

* Python strings are Lean `String`s, manipulated through their character
  lists (`String.data`), so that Python's `len`/slicing (which count
  characters) match exactly.
* A value that can be Python `None` (or a dict key that can be absent)
  is an `Option`.
* A function that calls `sys.exit(1)` on failure returns an `Option`,
  with `none` for the aborting branch.
* The per-record `try/except` inside `filter_releases` is modelled by a
  total per-record function that returns `none` exactly where the
  original raises (and is then caught) or `continue`s.
* The library calls the script depends on (`urllib.parse.urlparse`,
  `packaging.version.Version`, `datetime.strptime`, Python `date`
  objects) are modelled from those libraries' documented behaviour,
  including the exact regular expressions `packaging` and `_strptime`
  use, with the regex's backtracking order made explicit through
  candidate lists tried first-to-last.
-/

/-! ## Characters and digit strings -/

/-- The `[0-9]` character class of the regexes involved. -/
def isDigitChar (c : Char) : Bool := 48 ≤ c.toNat && c.toNat ≤ 57

/-- Numeric value of a decimal digit character. -/
def digitVal (c : Char) : Nat := c.toNat - 48

/-- `int(...)` on a string of decimal digits. -/
def digitsToNat (l : List Char) : Nat := l.foldl (fun a c => 10 * a + digitVal c) 0

/-- ASCII lowercasing of one character; used to model `re.IGNORECASE`
matching by lowercasing the subject first. -/
def lowerChar (c : Char) : Char :=
  if 65 ≤ c.toNat && c.toNat ≤ 90 then Char.ofNat (c.toNat + 32) else c

/-- The `\s` character class (space, tab, newline, vertical tab, form
feed, carriage return). -/
def isWsChar (c : Char) : Bool := c.toNat = 32 || (9 ≤ c.toNat && c.toNat ≤ 13)

/-- The `\s*` padding allowed around a version by `packaging`'s anchored
regex: strip whitespace from both ends. -/
def stripWs (l : List Char) : List Char :=
  ((l.dropWhile isWsChar).reverse.dropWhile isWsChar).reverse

/-! ## `packaging.version.Version`

`extract_version` hands the candidate string to
`packaging.version.Version`, whose anchored, case-insensitive
`VERSION_PATTERN` is

`v? (epoch!)? N(.N)* pre? post? dev? (+local)?`

with `pre = [-_.]?(a|b|c|rc|alpha|beta|pre|preview)[-_.]?(N)?`,
`post = -N | [-_.]?(post|rev|r)[-_.]?(N)?`, `dev = [-_.]?dev[-_.]?(N)?`
and `local = [a-z0-9]+([-_.][a-z0-9]+)*`.  An unmatchable string raises
`InvalidVersion`, which `extract_version` turns into `None`.

Optional groups are modelled by candidate lists in the regex's
backtracking order (group matched before group skipped, alternatives in
written order); the first candidate whose continuation completes wins.
Digit runs are always taken maximally: no later component of the
pattern can start with a digit, so the regex's shorter-run backtracking
candidates can never contribute a successful match. -/

/-- Result of a successful `packaging.version.Version(...)` call:
epoch, release tuple, and the normalised pre/post/dev/local segments
(pre labels normalise as `alpha → a`, `beta → b`,
`c`/`pre`/`preview → rc`; absent numbers default to `0`). -/
structure PyVersion where
  epoch : Nat
  release : List Nat
  pre : Option (String × Nat)
  post : Option Nat
  dev : Option Nat
  localSeg : Option (List Char)
  deriving DecidableEq

/-- `Version.is_prerelease`: true iff a dev or pre segment is present. -/
def PyVersion.is_prerelease (v : PyVersion) : Bool := v.dev.isSome || v.pre.isSome

/-- The `[-_\.]` separator class. -/
def isSepChar (c : Char) : Bool := c = '-' || c = '_' || c = '.'

/-- Candidates for an optional separator `[-_\.]?`: consume it first,
then try leaving it. -/
def optSepCands (l : List Char) : List (List Char) :=
  match l with
  | c :: rest => if isSepChar c then [rest, c :: rest] else [c :: rest]
  | [] => [[]]

/-- Pre-release labels in the alternation order of `VERSION_PATTERN`:
`a|b|c|rc|alpha|beta|pre|preview`. -/
def preLabels : List (List Char) :=
  [['a'], ['b'], ['c'], ['r','c'], ['a','l','p','h','a'], ['b','e','t','a'],
   ['p','r','e'], ['p','r','e','v','i','e','w']]

/-- Candidates, in backtracking order, for a group
`[-_\.]?(label₁|...)[-_\.]?([0-9]+)?` over the given label alternation;
an absent number defaults to `0` as in `packaging`. -/
def labelNumCands (labels : List (List Char)) (l : List Char) :
    List ((List Char × Nat) × List Char) :=
  (optSepCands l).flatMap (fun l1 =>
    labels.flatMap (fun lab =>
      if lab.isPrefixOf l1 then
        let l2 := l1.drop lab.length
        (optSepCands l2).flatMap (fun l3 =>
          let ds := l3.takeWhile isDigitChar
          if ds = [] then [((lab, 0), l3)]
          else [((lab, digitsToNat ds), l3.dropWhile isDigitChar), ((lab, 0), l3)])
      else []))

/-- Candidates for the optional `pre` group, ending with "no pre". -/
def preCands (l : List Char) : List (Option (List Char × Nat) × List Char) :=
  (labelNumCands preLabels l).map (fun c => (some c.1, c.2)) ++ [(none, l)]

/-- Post-release labels in alternation order: `post|rev|r`. -/
def postLabels : List (List Char) := [['p','o','s','t'], ['r','e','v'], ['r']]

/-- Candidates for the optional `post` group: the `-N` alternative
first, then the labelled alternative, then "no post". -/
def postCands (l : List Char) : List (Option Nat × List Char) :=
  (if l.head? = some '-' ∧ l.tail.takeWhile isDigitChar ≠ [] then
     [(some (digitsToNat (l.tail.takeWhile isDigitChar)), l.tail.dropWhile isDigitChar)]
   else []) ++
  (labelNumCands postLabels l).map (fun c => (some c.1.2, c.2)) ++ [(none, l)]

/-- Candidates for the optional `dev` group. -/
def devCands (l : List Char) : List (Option Nat × List Char) :=
  (labelNumCands [['d','e','v']] l).map (fun c => (some c.1.2, c.2)) ++ [(none, l)]

/-- `[a-z0-9]` after lowercasing. -/
def isLocalChar (c : Char) : Bool := (97 ≤ c.toNat && c.toNat ≤ 122) || isDigitChar c

/-- Split a character list at every separator matched by `p`
(Python `str.split` semantics: `n` separators yield `n+1` chunks,
possibly empty). -/
def splitBy (p : Char → Bool) : List Char → List (List Char)
  | [] => [[]]
  | c :: rest =>
    match splitBy p rest with
    | [] => [[]]
    | h :: t => if p c then [] :: h :: t else (c :: h) :: t

/-- Does `l` match `[a-z0-9]+([-_\.][a-z0-9]+)*` entirely? -/
def localGroupOk (l : List Char) : Bool :=
  (splitBy isSepChar l).all (fun g => decide (g ≠ []) && g.all isLocalChar)

/-- Candidates for the optional `+local` suffix (it can only be followed
by the end anchor, so it must swallow the whole remainder). -/
def localCands (l : List Char) : List (Option (List Char) × List Char) :=
  (if l.head? = some '+' ∧ localGroupOk l.tail then [(some l.tail, [])] else []) ++
    [(none, l)]

/-- `_parse_letter_version`'s label normalisation. -/
def normPreLabel (lab : List Char) : String :=
  if lab = ['a','l','p','h','a'] then "a"
  else if lab = ['b','e','t','a'] then "b"
  else if lab = ['c'] || lab = ['p','r','e'] || lab = ['p','r','e','v','i','e','w'] then "rc"
  else ⟨lab⟩

/-- The `(?:\.[0-9]+)*` tail of the release segment, with explicit
fuel (each group consumes at least one character, so `l.length` fuel
always suffices; the fuel keeps the recursion structural). -/
def dotNumsF : Nat → List Char → List Nat × List Char
  | 0, l => ([], l)
  | _ + 1, [] => ([], [])
  | fuel + 1, c :: rest =>
    if c = '.' then
      let ds := rest.takeWhile isDigitChar
      if ds = [] then ([], c :: rest)
      else
        let more := dotNumsF fuel (rest.dropWhile isDigitChar)
        (digitsToNat ds :: more.1, more.2)
    else ([], c :: rest)

/-- The `(?:\.[0-9]+)*` tail of the release segment: as many
`.digits` groups as possible. -/
def dotNums (l : List Char) : List Nat × List Char := dotNumsF l.length l

/-- The mandatory release segment `[0-9]+(\.[0-9]+)*`. -/
def parseRelease (l : List Char) : Option (List Nat × List Char) :=
  let ds := l.takeWhile isDigitChar
  if ds = [] then none
  else
    let t := dotNums (l.dropWhile isDigitChar)
    some (digitsToNat ds :: t.1, t.2)

/-- Candidates for the optional `(epoch)!` segment before the release. -/
def epochCands (l : List Char) : List (Nat × List Char) :=
  let ds := l.takeWhile isDigitChar
  let r := l.dropWhile isDigitChar
  if r.head? = some '!' ∧ ds ≠ [] then [(digitsToNat ds, r.tail), (0, l)]
  else [(0, l)]

/-- Everything after the release segment: pre, post, dev, local and the
end anchor, first complete candidate combination wins. -/
def parseFrom (ep : Nat) (rel : List Nat) (l : List Char) : Option PyVersion :=
  (preCands l).findSome? (fun pc =>
    (postCands pc.2).findSome? (fun qc =>
      (devCands qc.2).findSome? (fun dc =>
        (localCands dc.2).findSome? (fun lc =>
          if lc.2 = [] then
            some ⟨ep, rel, pc.1.map (fun s => (normPreLabel s.1, s.2)), qc.1, dc.1, lc.1⟩
          else none))))

/-- Drop a single leading `'v'` if present. -/
def dropHeadV (l : List Char) : List Char :=
  match l with
  | c :: rest => if c = 'v' then rest else c :: rest
  | [] => []

/-- The pattern after the optional `v`: epoch candidates, the release
segment, then the remaining optional segments. -/
def pyParseAfterV (l : List Char) : Option PyVersion :=
  (epochCands l).findSome? (fun ec =>
    match parseRelease ec.2 with
    | none => none
    | some rl => parseFrom ec.1 rl.1 rl.2)

/-- `packaging.version.Version(...)` on a character list: strip the
`\s*` padding, lowercase (`re.IGNORECASE`), drop the optional leading
`v` of the pattern, then epoch, release and the remaining segments.
(Consuming the `v` greedily loses no match: if it is present and left
unconsumed, the release segment cannot start.) -/
def pyParseChars (l0 : List Char) : Option PyVersion :=
  pyParseAfterV (dropHeadV ((stripWs l0).map lowerChar))

/-- `packaging.version.Version(...)` on a Python string (`none` models
`InvalidVersion`). -/
def pyVersion (s : String) : Option PyVersion := pyParseChars s.data

/-! ## `extract_version` (github_releases.py, lines 116–147) -/

/-- The tail of `extract_version`: strip a single leading `'v'`
(lowercase only, as in `version_str.startswith('v')`) and call
`Version`. -/
def stripLeadV (s : String) : Option PyVersion :=
  pyParseChars (dropHeadV s.data)

/-- `extract_version(tag_name, package_name)`: the source's
`if package_name:` tests Python truthiness, so `None` AND the empty
string both take the no-filter branch.  With a truthy package filter
the tag must start with `"<package>=="`, which is stripped before
version parsing; otherwise the whole tag is parsed.  `none` models the
`return None` paths (non-matching prefix, `InvalidVersion`). -/
def extract_version (tag_name : String) (package_name : Option String) :
    Option PyVersion :=
  let pkg := package_name.getD ""
  if pkg ≠ "" then
    let expected := pkg ++ "=="
    if expected.data.isPrefixOf tag_name.data then
      stripLeadV ⟨tag_name.data.drop expected.data.length⟩
    else none
  else stripLeadV tag_name

/-! ## Dates (`datetime.date` and `strptime`) -/

/-- A Python `datetime.date` value (the constructor only admits
`1 ≤ year ≤ 9999`, `1 ≤ month ≤ 12`, `1 ≤ day ≤ days_in_month`). -/
structure PyDate where
  year : Nat
  month : Nat
  day : Nat
  deriving DecidableEq

/-- Python `date` comparison: lexicographic on (year, month, day). -/
def dateLt (a b : PyDate) : Bool :=
  a.year < b.year ||
    (a.year = b.year && (a.month < b.month || (a.month = b.month && a.day < b.day)))

def isLeapYear (y : Nat) : Bool := (y % 4 = 0 && decide (y % 100 ≠ 0)) || y % 400 = 0

def daysInMonth (y m : Nat) : Nat :=
  if m = 2 then (if isLeapYear y then 29 else 28)
  else if m = 4 || m = 6 || m = 9 || m = 11 then 30
  else 31

/-- The `%Y` directive of `_strptime`: exactly four digits. -/
def take4Digits : List Char → Option (Nat × List Char)
  | a :: b :: c :: d :: rest =>
    if isDigitChar a && isDigitChar b && isDigitChar c && isDigitChar d then
      some (digitsToNat [a, b, c, d], rest)
    else none
  | _ => none

/-- A two-or-one-digit numeric directive of `_strptime`, e.g.
`%m = (1[0-2]|0[1-9]|[1-9])`: `ok2` decides whether the two-digit
alternative applies to digits `d₁d₂`, `ok1` whether the one-digit
alternative applies.  (No backtracking is needed: whenever the
two-digit branch matches, the one-digit branch would leave a digit in
front of a non-digit literal.) -/
def take2or1 (ok2 : Nat → Nat → Bool) (ok1 : Nat → Bool) :
    List Char → Option (Nat × List Char)
  | c1 :: c2 :: rest =>
    if isDigitChar c1 && isDigitChar c2 && ok2 (digitVal c1) (digitVal c2) then
      some (10 * digitVal c1 + digitVal c2, rest)
    else if isDigitChar c1 && ok1 (digitVal c1) then some (digitVal c1, c2 :: rest)
    else none
  | [c1] => if isDigitChar c1 && ok1 (digitVal c1) then some (digitVal c1, []) else none
  | [] => none

/-- A literal character of the format string (matched case-insensitively:
`_strptime` compiles its regex with `re.IGNORECASE`). -/
def takeLit (ch : Char) : List Char → Option (List Char)
  | c :: rest => if lowerChar c = lowerChar ch then some rest else none
  | [] => none

/-- `datetime.strptime(s, '%Y-%m-%dT%H:%M:%SZ').date()` as used by
`filter_releases`; `none` models the `ValueError` path (including the
"unconverted data remains" check and the `datetime` constructor's
range validation). -/
def parseGithubDate (s : String) : Option PyDate :=
  (take4Digits s.data).bind (fun yr =>
  (takeLit '-' yr.2).bind (fun r2 =>
  (take2or1 (fun d1 d2 => (d1 = 1 && d2 ≤ 2) || (d1 = 0 && 1 ≤ d2)) (fun d => 1 ≤ d) r2).bind (fun mo =>
  (takeLit '-' mo.2).bind (fun r4 =>
  (take2or1 (fun d1 d2 => (d1 = 3 && d2 ≤ 1) || d1 = 1 || d1 = 2 || (d1 = 0 && 1 ≤ d2)) (fun d => 1 ≤ d) r4).bind (fun dy =>
  (takeLit 'T' dy.2).bind (fun r6 =>
  (take2or1 (fun d1 d2 => (d1 = 2 && d2 ≤ 3) || d1 ≤ 1) (fun _ => true) r6).bind (fun hh =>
  (takeLit ':' hh.2).bind (fun r8 =>
  (take2or1 (fun d1 _ => d1 ≤ 5) (fun _ => true) r8).bind (fun mi =>
  (takeLit ':' mi.2).bind (fun r10 =>
  (take2or1 (fun d1 _ => d1 ≤ 5) (fun _ => true) r10).bind (fun ss =>
  (takeLit 'Z' ss.2).bind (fun r12 =>
    if r12 = [] && 1 ≤ yr.1 && 1 ≤ dy.1 && dy.1 ≤ daysInMonth yr.1 mo.1 then
      some ⟨yr.1, mo.1, dy.1⟩
    else none))))))))))))

/-! ## `filter_releases` (lines 150–186) -/

/-- One element of the GitHub releases JSON array: the two fields the
script reads.  `none` models a missing key (`KeyError` on access) or a
JSON `null` (`TypeError` in `strptime`); all other API fields are
ignored by the pipeline. -/
structure Release where
  tag_name : Option String
  published_at : Option String
  deriving DecidableEq

/-- The tag/version part of one `filter_releases` loop iteration, after
the date test has passed: extract a version from the tag, drop the
record if extraction fails or if it is an excluded prerelease,
otherwise keep `(tag, date)`. -/
def versionStep (package_name : Option String) (include_prereleases : Bool)
    (tagOpt : Option String) (d : PyDate) : Option (String × PyDate) :=
  match tagOpt with
  | none => none
  | some tag =>
    match extract_version tag package_name with
    | none => none
    | some v =>
      if !include_prereleases && v.is_prerelease then none else some (tag, d)

/-- One `filter_releases` loop iteration: `none` covers every way the
record contributes nothing — a raised-and-caught per-record error
(missing key, unparseable timestamp), the date test, failed version
extraction, or an excluded prerelease. -/
def processRelease (start_date : PyDate) (package_name : Option String)
    (include_prereleases : Bool) (r : Release) : Option (String × PyDate) :=
  match r.published_at with
  | none => none
  | some s =>
    match parseGithubDate s with
    | none => none
    | some d =>
      if dateLt d start_date then none
      else versionStep package_name include_prereleases r.tag_name d

/-- `filter_releases(releases, start_date, package_name,
include_prereleases)`: the surviving `(tag, date)` pairs, in input
order. -/
def filter_releases (releases : List Release) (start_date : PyDate)
    (package_name : Option String) (include_prereleases : Bool) :
    List (String × PyDate) :=
  releases.filterMap (processRelease start_date package_name include_prereleases)

/-- Exactly the records on which the loop body of `filter_releases`
raises (and catches) an exception: `published_at` absent, timestamp
unparseable, or `tag_name` absent (it is read both in the date-skip
log message and in the main path). -/
def raisesOnRecord (r : Release) : Bool :=
  match r.published_at with
  | none => true
  | some s =>
    match parseGithubDate s with
    | none => true
    | some _ => r.tag_name.isNone

/-! ## `save_to_file` (lines 189–204) -/

/-- The character of a decimal digit value (values above nine cannot
arise from `% 10`). -/
def digitCharOf (n : Nat) : Char :=
  match n with
  | 0 => '0' | 1 => '1' | 2 => '2' | 3 => '3' | 4 => '4'
  | 5 => '5' | 6 => '6' | 7 => '7' | 8 => '8' | _ => '9'

/-- Decimal digits of `n`, most significant first, with fuel (each
step divides by ten, so `n + 1` fuel always suffices; the fuel keeps
the recursion structural). -/
def natDigitsF : Nat → Nat → List Char
  | 0, _ => []
  | fuel + 1, n =>
    if n < 10 then [digitCharOf n] else natDigitsF fuel (n / 10) ++ [digitCharOf (n % 10)]

/-- Decimal digits of `n`, most significant first (`str(n)`). -/
def natDigitsCore (n : Nat) : List Char := natDigitsF (n + 1) n

/-- `%0wd`: decimal digits left-padded with zeros to width `w`. -/
def padNum (w n : Nat) : List Char :=
  List.replicate (w - (natDigitsCore n).length) '0' ++ natDigitsCore n

/-- `str(date)`, i.e. `date.isoformat()`: `YYYY-MM-DD` with zero
padding. -/
def dateIso (d : PyDate) : String :=
  ⟨padNum 4 d.year ++ '-' :: padNum 2 d.month ++ '-' :: padNum 2 d.day⟩

/-- The `f'{tag}, {date}\n'` written for one entry. -/
def entryLine (e : String × PyDate) : String := e.1 ++ ", " ++ dateIso e.2 ++ "\n"

/-- `save_to_file(releases, output_file)`: the file is opened with mode
`'w'`, so whatever content it had (`oldContent`) is discarded and the
loop appends one line per entry; the result is the file's final
content. -/
def save_to_file (_oldContent : String) (releases : List (String × PyDate)) : String :=
  releases.foldl (fun acc e => acc ++ entryLine e) ""

/-! ## `parse_github_url` (lines 55–77) -/

/-- The `while True` pagination loop, starting at `page` with `releases
= acc` accumulated so far. -/
def fetchPages (api : Nat → List Release) : Nat → Nat → List Release →
    Option (List Release)
  | 0, _, _ => none
  | fuel + 1, page, acc =>
    let pr := api page
    if pr = [] then some acc else fetchPages api fuel (page + 1) (acc ++ pr)

/-- `fetch_releases(owner, repo, token)`: pages of 100 records are
requested starting from page 1 until an empty page arrives. -/
def fetch_releases (api : Nat → List Release) (fuel : Nat) : Option (List Release) :=
  fetchPages api fuel 1 []

/-! ## `main` (lines 207–233): output-file resolution -/

/-- The value of the optional numeric part of a pre/post/dev segment:
`0` when absent, else the number after the optional separator. -/
def segNum (t : List Char) : Nat :=
  digitsToNat (if t.head? = some '.' then t.tail else t)

/-- One semantic-versioning pre-release identifier: nonempty,
alphanumerics and hyphens only, and a purely numeric identifier must
not have a leading zero. -/
def semverPreIdent (g : List Char) : Bool :=
  decide (g ≠ []) &&
    g.all (fun c => c.isAlphanum || c = '-') &&
    (!(g.all isDigitChar) || g.head? ≠ some '0' || g = ['0'])

/-- One semantic-versioning numeric core identifier (no leading zero). -/
def semverNumIdent (g : List Char) : Bool :=
  decide (g ≠ []) && g.all isDigitChar && (g.head? ≠ some '0' || g = ['0'])

/-- Stated from the spec's words ("semantic-versioning rules", the
sentence the claim about prerelease classification appeals to): the
version string is a valid semver `MAJOR.MINOR.PATCH-prerelease(+build)?`
and carries a (nonempty) pre-release identifier segment. -/
def semverHasPreSegment (s : String) : Bool :=
  let l := s.data
  let core := l.takeWhile (fun c => isDigitChar c || c = '.')
  let segs := splitBy (fun c => c = '.') core
  (segs.length = 3 && segs.all semverNumIdent) &&
    (match l.drop core.length with
     | '-' :: preBuild =>
       let pre := preBuild.takeWhile (fun c => decide (c ≠ '+'))
       let build := preBuild.dropWhile (fun c => decide (c ≠ '+'))
       (splitBy (fun c => c = '.') pre).all semverPreIdent &&
         (match build with
          | [] => true
          | '+' :: b => (splitBy (fun c => c = '.') b).all
              (fun g => decide (g ≠ []) && g.all (fun c => c.isAlphanum || c = '-'))
          | _ => false)
     | _ => false)

/-! ## Helper lemmas: character classes and scanning -/

theorem dropWhile_eq_self_of_all {p : Char → Bool} {l : List Char}
    (h : ∀ c ∈ l, p c = false) : l.dropWhile p = l := by
  cases l with
  | nil => rfl
  | cons c t => simp [List.dropWhile_cons, h c (by simp)]

theorem takeWhile_eq_self_of_all {p : Char → Bool} {l : List Char}
    (h : ∀ c ∈ l, p c = true) : l.takeWhile p = l := by
  induction l with
  | nil => rfl
  | cons c t ih =>
    simp [List.takeWhile_cons, h c (by simp), ih (fun d hd => h d (by simp [hd]))]

theorem dropWhile_eq_nil_of_all {p : Char → Bool} {l : List Char}
    (h : ∀ c ∈ l, p c = true) : l.dropWhile p = [] := by
  induction l with
  | nil => rfl
  | cons c t ih =>
    simp [List.dropWhile_cons, h c (by simp), ih (fun d hd => h d (by simp [hd]))]

theorem stripWs_eq_self {l : List Char} (h : ∀ c ∈ l, isWsChar c = false) :
    stripWs l = l := by
  unfold stripWs
  rw [dropWhile_eq_self_of_all h, dropWhile_eq_self_of_all
    (fun c hc => h c (List.mem_reverse.mp hc)), List.reverse_reverse]

theorem map_lowerChar_eq_self {l : List Char} (h : ∀ c ∈ l, lowerChar c = c) :
    l.map lowerChar = l := by
  induction l with
  | nil => rfl
  | cons c t ih => simp [h c (by simp), ih (fun d hd => h d (by simp [hd]))]

theorem takeWhile_append_of_head {p : Char → Bool} {ds rest : List Char}
    (hall : ∀ c ∈ ds, p c = true)
    (hrest : ∀ c, rest.head? = some c → p c = false) :
    (ds ++ rest).takeWhile p = ds ∧ (ds ++ rest).dropWhile p = rest := by
  induction ds with
  | nil =>
    cases rest with
    | nil => exact ⟨rfl, rfl⟩
    | cons c t => simp [List.takeWhile_cons, List.dropWhile_cons, hrest c rfl]
  | cons d dt ih =>
    have hd : p d = true := hall d (by simp)
    have h2 := ih (fun c hc => hall c (by simp [hc]))
    simp [List.takeWhile_cons, List.dropWhile_cons, hd, h2.1, h2.2]

theorem isDigitChar_toNat {c : Char} (h : isDigitChar c = true) :
    48 ≤ c.toNat ∧ c.toNat ≤ 57 := by
  simpa [isDigitChar] using h

theorem digit_ne_of_toNat {c d : Char} (h : isDigitChar c = true)
    (hd : d.toNat < 48 ∨ 57 < d.toNat) : c ≠ d := by
  intro heq
  have h2 : c.toNat = d.toNat := by rw [heq]
  have := isDigitChar_toNat h
  omega

theorem digit_not_ws {c : Char} (h : isDigitChar c = true) : isWsChar c = false := by
  have := isDigitChar_toNat h
  simp only [isWsChar, Bool.or_eq_false_iff, Bool.and_eq_false_iff,
    decide_eq_false_iff_not, not_le]
  omega

theorem lower_eq_self_of_toNat {c : Char} (h : c.toNat < 65 ∨ 90 < c.toNat) :
    lowerChar c = c := by
  unfold lowerChar
  rw [if_neg]
  simp only [Bool.and_eq_true, decide_eq_true_eq, not_and]
  omega

theorem digit_lower {c : Char} (h : isDigitChar c = true) : lowerChar c = c := by
  have := isDigitChar_toNat h
  exact lower_eq_self_of_toNat (by omega)

theorem digit_not_sep {c : Char} (h : isDigitChar c = true) : isSepChar c = false := by
  have h1 : c ≠ '-' := digit_ne_of_toNat h (by decide)
  have h2 : c ≠ '_' := digit_ne_of_toNat h (by decide)
  have h3 : c ≠ '.' := digit_ne_of_toNat h (by decide)
  simp [isSepChar, h1, h2, h3]

/-! ## Helper lemmas: the version parser on `N.N.N`-shaped strings -/

theorem dotNumsF_nil (f : Nat) : dotNumsF f [] = ([], []) := by
  cases f <;> rfl

theorem dotNumsF_congr (f1 : Nat) : ∀ (l : List Char) (f2 : Nat),
    l.length ≤ f1 → l.length ≤ f2 → dotNumsF f1 l = dotNumsF f2 l := by
  induction f1 using Nat.strong_induction_on with
  | _ f1 ih =>
    intro l f2 h1 h2
    cases l with
    | nil => rw [dotNumsF_nil, dotNumsF_nil]
    | cons c rest =>
      simp only [List.length_cons] at h1 h2
      obtain ⟨g1, rfl⟩ : ∃ g, f1 = g + 1 := ⟨f1 - 1, by omega⟩
      obtain ⟨g2, rfl⟩ : ∃ g, f2 = g + 1 := ⟨f2 - 1, by omega⟩
      simp only [dotNumsF]
      by_cases hc : c = '.'
      · by_cases hds : rest.takeWhile isDigitChar = []
        · simp [hc, hds]
        · have hlen : (rest.dropWhile isDigitChar).length ≤ rest.length :=
            (List.dropWhile_sublist _).length_le
          have hrec := ih g1 (by omega) (rest.dropWhile isDigitChar) g2
            (by omega) (by omega)
          simp [hc, hds, hrec]
      · simp [hc]

theorem dotNums_stop {l : List Char} (hh : ∀ c, l.head? = some c → ¬ c = '.') :
    dotNums l = ([], l) := by
  cases l with
  | nil => simp [dotNums, dotNumsF]
  | cons c t => simp [dotNums, dotNumsF, hh c rfl]

theorem dotNums_cons {d tail2 : List Char} (hd : d ≠ [])
    (hdd : ∀ c ∈ d, isDigitChar c = true)
    (hh : ∀ c, tail2.head? = some c → isDigitChar c = false) :
    dotNums ('.' :: (d ++ tail2)) =
      (digitsToNat d :: (dotNums tail2).1, (dotNums tail2).2) := by
  have htw := takeWhile_append_of_head hdd hh
  have hcongr := dotNumsF_congr ((d ++ tail2).length) tail2 tail2.length
    (by simp) (Nat.le_refl _)
  simp only [List.length_append] at hcongr
  simp [dotNums, dotNumsF, htw.1, htw.2, hd, hcongr]

theorem parseFrom_nil (ep : Nat) (rel : List Nat) :
    parseFrom ep rel [] = some ⟨ep, rel, none, none, none, none⟩ := rfl

theorem head_dot_digit {t : List Char} :
    ∀ c, ('.' :: t).head? = some c → isDigitChar c = false := by
  intro c hc
  simp only [List.head?_cons, Option.some.injEq] at hc
  subst hc
  decide

/-- Parsing a string `dx.dy.dz` + `rest` where the `d·` are digit runs
and `rest` cannot extend the release segment: the release is read off
and the remaining segments are parsed from `rest`. -/
theorem pyParseChars_release {dx dy dz rest : List Char}
    (hx : dx ≠ []) (hxd : ∀ c ∈ dx, isDigitChar c = true)
    (hy : dy ≠ []) (hyd : ∀ c ∈ dy, isDigitChar c = true)
    (hz : dz ≠ []) (hzd : ∀ c ∈ dz, isDigitChar c = true)
    (hrw : ∀ c ∈ rest, isWsChar c = false)
    (hrl : ∀ c ∈ rest, lowerChar c = c)
    (hrh : ∀ c, rest.head? = some c → isDigitChar c = false ∧ ¬ c = '.') :
    pyParseChars (dx ++ ('.' :: (dy ++ ('.' :: (dz ++ rest))))) =
      parseFrom 0 [digitsToNat dx, digitsToNat dy, digitsToNat dz] rest := by
  have hrhd : ∀ c, rest.head? = some c → isDigitChar c = false :=
    fun c hc => (hrh c hc).1
  have hstop : dotNums rest = ([], rest) := dotNums_stop (fun c hc => (hrh c hc).2)
  obtain ⟨x, dx', rfl⟩ := List.exists_cons_of_ne_nil hx
  have hxdig : isDigitChar x = true := hxd x (by simp)
  have hdx'd : ∀ c ∈ dx', isDigitChar c = true := fun c h => hxd c (by simp [h])
  have hxv : ¬ x = 'v' := digit_ne_of_toNat hxdig (by decide)
  simp only [List.cons_append]
  have hall_ws : ∀ c ∈ x :: (dx' ++ ('.' :: (dy ++ ('.' :: (dz ++ rest))))),
      isWsChar c = false := by
    refine List.forall_mem_cons.mpr ⟨digit_not_ws hxdig, ?_⟩
    refine List.forall_mem_append.mpr ⟨fun c h => digit_not_ws (hdx'd c h), ?_⟩
    refine List.forall_mem_cons.mpr ⟨by decide, ?_⟩
    refine List.forall_mem_append.mpr ⟨fun c h => digit_not_ws (hyd c h), ?_⟩
    refine List.forall_mem_cons.mpr ⟨by decide, ?_⟩
    exact List.forall_mem_append.mpr ⟨fun c h => digit_not_ws (hzd c h), hrw⟩
  have hall_low : ∀ c ∈ x :: (dx' ++ ('.' :: (dy ++ ('.' :: (dz ++ rest))))),
      lowerChar c = c := by
    refine List.forall_mem_cons.mpr ⟨digit_lower hxdig, ?_⟩
    refine List.forall_mem_append.mpr ⟨fun c h => digit_lower (hdx'd c h), ?_⟩
    refine List.forall_mem_cons.mpr ⟨by decide, ?_⟩
    refine List.forall_mem_append.mpr ⟨fun c h => digit_lower (hyd c h), ?_⟩
    refine List.forall_mem_cons.mpr ⟨by decide, ?_⟩
    exact List.forall_mem_append.mpr ⟨fun c h => digit_lower (hzd c h), hrl⟩
  have hdv : dropHeadV (x :: (dx' ++ ('.' :: (dy ++ ('.' :: (dz ++ rest)))))) =
      x :: (dx' ++ ('.' :: (dy ++ ('.' :: (dz ++ rest))))) := by
    simp [dropHeadV, hxv]
  have htw : ((x :: dx') ++ ('.' :: (dy ++ ('.' :: (dz ++ rest))))).takeWhile isDigitChar
        = x :: dx' ∧
      ((x :: dx') ++ ('.' :: (dy ++ ('.' :: (dz ++ rest))))).dropWhile isDigitChar
        = '.' :: (dy ++ ('.' :: (dz ++ rest))) :=
    takeWhile_append_of_head hxd head_dot_digit
  simp only [List.cons_append] at htw
  have hnotbang : ¬ (('.' :: (dy ++ ('.' :: (dz ++ rest)))).head? = some '!' ∧
      ¬ (x :: dx' = [])) := by
    intro h
    rcases h with ⟨h1, -⟩
    simp only [List.head?_cons, Option.some.injEq] at h1
    exact absurd h1 (by decide)
  have hec : epochCands (x :: (dx' ++ ('.' :: (dy ++ ('.' :: (dz ++ rest)))))) =
      [(0, x :: (dx' ++ ('.' :: (dy ++ ('.' :: (dz ++ rest))))))] := by
    simp only [epochCands, htw.1, htw.2]
    rw [if_neg hnotbang]
  have hpr : parseRelease (x :: (dx' ++ ('.' :: (dy ++ ('.' :: (dz ++ rest)))))) =
      some ([digitsToNat (x :: dx'), digitsToNat dy, digitsToNat dz], rest) := by
    simp only [parseRelease, htw.1, htw.2]
    rw [if_neg (by simp)]
    rw [dotNums_cons hy hyd head_dot_digit]
    rw [dotNums_cons hz hzd hrhd]
    rw [hstop]
  unfold pyParseChars
  rw [stripWs_eq_self hall_ws, map_lowerChar_eq_self hall_low, hdv]
  unfold pyParseAfterV
  rw [hec, List.findSome?_cons]
  simp only [hpr]
  cases hfs : parseFrom 0 [digitsToNat (x :: dx'), digitsToNat dy, digitsToNat dz] rest with
  | none => rfl
  | some v => rfl


set_option maxHeartbeats 2000000 in
/-- `parseFrom` on a remainder of the shape `-<label>`, `-<label>N` or
`-<label>.N` with a pre-release label: the pre segment is recognised
(with its normalised label and number) and nothing else. -/
theorem parseFrom_preSeg (ep : Nat) (rel : List Nat) (lab t : List Char)
    (hlab : lab ∈ preLabels)
    (ht : t = [] ∨ ∃ dn, dn ≠ [] ∧ (∀ c ∈ dn, isDigitChar c = true) ∧
      (t = dn ∨ t = '.' :: dn)) :
    parseFrom ep rel ('-' :: (lab ++ t)) =
      some ⟨ep, rel, some (normPreLabel lab, segNum t), none, none, none⟩ := by
  have hcore : t = [] ∨ ∃ c0 dn', (∀ c ∈ c0 :: dn', isDigitChar c = true) ∧
      (t = c0 :: dn' ∨ t = '.' :: c0 :: dn') := by
    rcases ht with rfl | ⟨dn, hne, hdig, heq⟩
    · exact Or.inl rfl
    · obtain ⟨c0, dn', rfl⟩ := List.exists_cons_of_ne_nil hne
      exact Or.inr ⟨c0, dn', hdig, heq⟩
  clear ht
  fin_cases hlab <;>
  · rcases hcore with rfl | ⟨c0, dn', hdig, heq⟩
    · rfl
    · have h0 : isDigitChar c0 = true := hdig c0 (by simp)
      have htw := takeWhile_eq_self_of_all hdig
      have hdw := dropWhile_eq_nil_of_all hdig
      have hsep := digit_not_sep h0
      have hel : ¬ ('l' = c0) := Ne.symm (digit_ne_of_toNat h0 (by decide))
      have hee : ¬ ('e' = c0) := Ne.symm (digit_ne_of_toNat h0 (by decide))
      have hev : ¬ ('v' = c0) := Ne.symm (digit_ne_of_toNat h0 (by decide))
      have hdot : ¬ (c0 = '.') := digit_ne_of_toNat h0 (by decide)
      rcases heq with rfl | rfl <;>
        simp +decide [parseFrom, preCands, labelNumCands, optSepCands, preLabels,
          postCands, postLabels, devCands, localCands, normPreLabel, segNum,
          List.findSome?, List.isPrefixOf, htw, hdw, hsep, h0, hel, hee, hev, hdot]

/-! ## Claim theorems: the filter pipeline -/

/-- **C1**: for the three-release scenario (v1.2.0 on 2024-02-01,
v1.3.0-beta on 2024-03-01, v0.9.0 on 2023-12-01), start date
2024-01-01, no package filter and prereleases excluded, the filter
returns exactly the single pair ("v1.2.0", 2024-02-01), which the
writer serialises as the single line "v1.2.0, 2024-02-01". -/
theorem claim_C1 :
    filter_releases
      [⟨some "v1.2.0", some "2024-02-01T00:00:00Z"⟩,
       ⟨some "v1.3.0-beta", some "2024-03-01T00:00:00Z"⟩,
       ⟨some "v0.9.0", some "2023-12-01T00:00:00Z"⟩]
      ⟨2024, 1, 1⟩ none false = [("v1.2.0", ⟨2024, 2, 1⟩)] ∧
    save_to_file "" [("v1.2.0", ⟨2024, 2, 1⟩)] = "v1.2.0, 2024-02-01\n" := by
  decide

/-- **C2**: for any release whose `published_at` parses to a calendar
date `d`, the date test excludes the release iff `d` is strictly before
the start date: if `d < start` the record yields nothing regardless of
its tag or the version logic, and otherwise (in particular when
`d = start`, the start date being inclusive) the record's fate is
exactly that of the version step. -/
theorem claim_C2 (r : Release) (s : String) (d start : PyDate)
    (pkg : Option String) (inc : Bool)
    (hpub : r.published_at = some s) (hparse : parseGithubDate s = some d) :
    (dateLt d start = true → processRelease start pkg inc r = none) ∧
    (dateLt d start = false →
      processRelease start pkg inc r = versionStep pkg inc r.tag_name d) ∧
    (d = start → processRelease start pkg inc r = versionStep pkg inc r.tag_name d) := by
  have hself : dateLt d d = false := by simp [dateLt]
  refine ⟨fun h => ?_, fun h => ?_, fun h => ?_⟩
  · simp [processRelease, hpub, hparse, h]
  · simp [processRelease, hpub, hparse, h]
  · subst h
    simp [processRelease, hpub, hparse, hself]

/-- Witness for C2 at a concrete release whose date equals the start
date: the record is passed on to the version step. -/
theorem claim_C2_witness :
    processRelease ⟨2024, 1, 2⟩ none false ⟨some "v1.0.0", some "2024-01-02T03:04:05Z"⟩ =
      versionStep none false (some "v1.0.0") ⟨2024, 1, 2⟩ :=
  (claim_C2 ⟨some "v1.0.0", some "2024-01-02T03:04:05Z"⟩ "2024-01-02T03:04:05Z"
    ⟨2024, 1, 2⟩ ⟨2024, 1, 2⟩ none false rfl (by decide)).2.2 rfl

/-- **C7**: a record on which the loop body of `filter_releases` raises
(missing or unparseable `published_at`, or missing `tag_name`) is
skipped individually: the filter (a total function in this model, so it
never propagates an exception) returns on the whole batch exactly what
it returns with the faulty record removed. -/
theorem claim_C7 (rs1 rs2 : List Release) (r : Release) (start : PyDate)
    (pkg : Option String) (inc : Bool) (h : raisesOnRecord r = true) :
    filter_releases (rs1 ++ r :: rs2) start pkg inc =
      filter_releases (rs1 ++ rs2) start pkg inc := by
  have hnone : processRelease start pkg inc r = none := by
    rcases hp : r.published_at with _ | s
    · simp [processRelease, hp]
    · rcases hd : parseGithubDate s with _ | d
      · simp [processRelease, hp, hd]
      · rcases htag : r.tag_name with _ | tag
        · simp [processRelease, versionStep, hp, hd, htag]
        · exfalso
          simp [raisesOnRecord, hp, hd, htag] at h
  simp [filter_releases, List.filterMap_append, List.filterMap_cons, hnone]

/-- Witness for C7: a record with no `published_at` contributes
nothing. -/
theorem claim_C7_witness :
    filter_releases ([] ++ ⟨some "x", none⟩ :: []) ⟨2024, 1, 1⟩ none false = [] :=
  (claim_C7 [] [] ⟨some "x", none⟩ ⟨2024, 1, 1⟩ none false (by decide)).trans (by decide)

/-- **C9**: the filter's output is an order-preserving selection of its
input: there is a sublist of the input releases, each of whose elements
produces exactly one output pair, such that the output is that sublist's
image — so every output pair comes from a distinct input release and
output pairs appear in the relative order of their source releases. -/
theorem claim_C9 (rs : List Release) (start : PyDate) (pkg : Option String)
    (inc : Bool) :
    ∃ sub : List Release, sub.Sublist rs ∧
      (∀ r ∈ sub, (processRelease start pkg inc r).isSome) ∧
      filter_releases rs start pkg inc =
        sub.filterMap (processRelease start pkg inc) ∧
      sub.length = (filter_releases rs start pkg inc).length := by
  induction rs with
  | nil => exact ⟨[], by simp, by simp, by simp [filter_releases], by simp [filter_releases]⟩
  | cons r rs ih =>
    obtain ⟨sub, hsub, hsome, heq, hlen⟩ := ih
    cases hp : processRelease start pkg inc r with
    | none =>
      refine ⟨sub, hsub.cons r, hsome, ?_, ?_⟩
      · simp [filter_releases, List.filterMap_cons, hp] at heq ⊢
        exact heq
      · simp [filter_releases, List.filterMap_cons, hp] at hlen ⊢
        exact hlen
    | some v =>
      refine ⟨r :: sub, hsub.cons₂ r, ?_, ?_, ?_⟩
      · intro q hq
        rcases List.mem_cons.mp hq with rfl | hq2
        · simp [hp]
        · exact hsome q hq2
      · simp [filter_releases, List.filterMap_cons, hp] at heq ⊢
        exact heq
      · simp [filter_releases, List.filterMap_cons, hp] at hlen ⊢
        exact hlen

theorem dropHeadV_ne {l : List Char} (h : ∀ c, l.head? = some c → ¬ c = 'v') :
    dropHeadV l = l := by
  cases l with
  | nil => rfl
  | cons c t => simp [dropHeadV, h c rfl]

/-- `stripLeadV` on a digit-led `dx.dy.dz` + `rest` string: the source's
own `v`-strip does nothing and `Version` reads the release off. -/
theorem stripLeadV_release {dx dy dz rest : List Char}
    (hx : dx ≠ []) (hxd : ∀ c ∈ dx, isDigitChar c = true)
    (hy : dy ≠ []) (hyd : ∀ c ∈ dy, isDigitChar c = true)
    (hz : dz ≠ []) (hzd : ∀ c ∈ dz, isDigitChar c = true)
    (hrw : ∀ c ∈ rest, isWsChar c = false)
    (hrl : ∀ c ∈ rest, lowerChar c = c)
    (hrh : ∀ c, rest.head? = some c → isDigitChar c = false ∧ ¬ c = '.') :
    stripLeadV ⟨dx ++ ('.' :: (dy ++ ('.' :: (dz ++ rest))))⟩ =
      parseFrom 0 [digitsToNat dx, digitsToNat dy, digitsToNat dz] rest := by
  show pyParseChars (dropHeadV (dx ++ ('.' :: (dy ++ ('.' :: (dz ++ rest)))))) = _
  rw [dropHeadV_ne]
  · exact pyParseChars_release hx hxd hy hyd hz hzd hrw hrl hrh
  · intro c hc
    obtain ⟨x, dx', rfl⟩ := List.exists_cons_of_ne_nil hx
    simp only [List.cons_append, List.head?_cons, Option.some.injEq] at hc
    subst hc
    exact digit_ne_of_toNat (hxd x (by simp)) (by decide)

theorem preLabel_chars {lab : List Char} (h : lab ∈ preLabels) :
    ∀ c ∈ lab, isWsChar c = false ∧ lowerChar c = c := by
  fin_cases h <;> decide

/-- **C3, counterexample**: the source's presence check
`if package_name:` tests truthiness, so the supplied empty-string
filter is ignored: with filter `""`, the tag `"1.2.3"` does NOT start
with the prefix `""=="` (i.e. `"=="`) yet yields version 1.2.3, and
the tag `"==v1.2.3"`, which has the exact form `""==vX.Y.Z`, yields no
version. -/
theorem claim_C3_counterexample :
    extract_version "1.2.3" (some "") = some ⟨0, [1, 2, 3], none, none, none, none⟩ ∧
    extract_version "==v1.2.3" (some "") = none := by
  decide

/-- **C3, amended**: with a supplied NON-EMPTY package filter `pkg`
(the code's presence check is Python truthiness, so an empty-string
filter behaves as no filter), every tag of the exact form
`pkg==vX.Y.Z` yields the version `X.Y.Z` (the `pkg==` prefix is
stripped, then the single leading `v`), and every tag that does not
start with the exact prefix `pkg==` yields no version (not an
error). -/
theorem claim_C3 :
    (∀ (pkg : String) (dx dy dz : List Char), pkg ≠ "" →
      dx ≠ [] → (∀ c ∈ dx, isDigitChar c = true) →
      dy ≠ [] → (∀ c ∈ dy, isDigitChar c = true) →
      dz ≠ [] → (∀ c ∈ dz, isDigitChar c = true) →
      extract_version
        ⟨pkg.data ++ ('=' :: '=' :: ('v' :: (dx ++ ('.' :: (dy ++ ('.' :: dz))))))⟩
        (some pkg) =
        some ⟨0, [digitsToNat dx, digitsToNat dy, digitsToNat dz],
          none, none, none, none⟩) ∧
    (∀ (pkg tag : String), pkg ≠ "" →
      (pkg ++ "==").data.isPrefixOf tag.data = false →
      extract_version tag (some pkg) = none) := by
  constructor
  · intro pkg dx dy dz hpkg hx hxd hy hyd hz hzd
    simp only [extract_version, Option.getD_some]
    rw [if_pos hpkg]
    have hpre : (pkg ++ "==").data.isPrefixOf
        (String.mk (pkg.data ++ ('=' :: '=' :: ('v' :: (dx ++ ('.' :: (dy ++ ('.' :: dz)))))))).data = true := by
      simp only [String.data_append, List.isPrefixOf_iff_prefix]
      refine ⟨'v' :: (dx ++ ('.' :: (dy ++ ('.' :: dz)))), ?_⟩
      simp
    rw [if_pos hpre]
    have hdrop : (String.mk (pkg.data ++ ('=' :: '=' :: ('v' :: (dx ++ ('.' :: (dy ++ ('.' :: dz)))))))).data.drop
        ((pkg ++ "==").data.length) =
        'v' :: (dx ++ ('.' :: (dy ++ ('.' :: dz)))) := by
      show (pkg.data ++ ('=' :: '=' :: ('v' :: (dx ++ ('.' :: (dy ++ ('.' :: dz))))))).drop
        ((pkg ++ "==").data.length) = _
      rw [show pkg.data ++ ('=' :: '=' :: ('v' :: (dx ++ ('.' :: (dy ++ ('.' :: dz)))))) =
        (pkg.data ++ ['=', '=']) ++ ('v' :: (dx ++ ('.' :: (dy ++ ('.' :: dz))))) by simp]
      exact List.drop_left' (by simp [String.data_append])
    rw [hdrop]
    show pyParseChars (dropHeadV ('v' :: (dx ++ ('.' :: (dy ++ ('.' :: dz)))))) = _
    rw [show dropHeadV ('v' :: (dx ++ ('.' :: (dy ++ ('.' :: dz))))) =
      dx ++ ('.' :: (dy ++ ('.' :: dz))) by simp [dropHeadV]]
    have h := pyParseChars_release hx hxd hy hyd hz hzd
      (fun c hc => absurd hc (List.not_mem_nil c))
      (fun c hc => absurd hc (List.not_mem_nil c))
      (fun c hc => by simp at hc)
    rw [List.append_nil] at h
    rw [h, parseFrom_nil]
  · intro pkg tag hpkg h
    simp only [extract_version, Option.getD_some]
    rw [if_pos hpkg, h]
    simp

/-- Witness for C3: `widget==v1.2.3` with filter `widget` yields
version `1.2.3`; `other==1.0.0` with filter `widget` yields none. -/
theorem claim_C3_witness :
    extract_version
      ⟨"widget".data ++ ('=' :: '=' :: ('v' :: (['1'] ++ ('.' :: (['2'] ++ ('.' :: ['3']))))))⟩
      (some "widget") = some ⟨0, [1, 2, 3], none, none, none, none⟩ ∧
    extract_version "other==1.0.0" (some "widget") = none := by
  constructor
  · exact (claim_C3.1 "widget" ['1'] ['2'] ['3'] (by decide) (by decide) (by decide)
      (by decide) (by decide) (by decide) (by decide)).trans (by decide)
  · exact claim_C3.2 "widget" "other==1.0.0" (by decide) (by decide)

/-- **C4, counterexample**: the version string `1.0.0-1` carries a
semantic-versioning pre-release identifier segment (`-1`), yet the
extractor parses it (PEP 440) as the post-release `1.0.0.post1` and
classifies it as NOT a prerelease — so classification does not follow
semantic-versioning rules for every such string. -/
theorem claim_C4_counterexample :
    semverHasPreSegment "1.0.0-1" = true ∧
    extract_version "1.0.0-1" none = some ⟨0, [1, 0, 0], none, some 1, none, none⟩ ∧
    (extract_version "1.0.0-1" none).map PyVersion.is_prerelease = some false := by
  decide

/-- **C4, amended**: prerelease classification follows PEP 440 (the
rule `packaging.version` implements), not full semver: every version
string `X.Y.Z` followed by `-L`, `-LN` or `-L.N` with a PEP 440
pre-release label `L` (`a`, `b`, `c`, `rc`, `alpha`, `beta`, `pre`,
`preview`) is classified as a prerelease, and every plain `X.Y.Z`
string is classified as a full release. -/
theorem claim_C4 :
    (∀ (dx dy dz lab t : List Char),
      dx ≠ [] → (∀ c ∈ dx, isDigitChar c = true) →
      dy ≠ [] → (∀ c ∈ dy, isDigitChar c = true) →
      dz ≠ [] → (∀ c ∈ dz, isDigitChar c = true) →
      lab ∈ preLabels →
      (t = [] ∨ ∃ dn, dn ≠ [] ∧ (∀ c ∈ dn, isDigitChar c = true) ∧
        (t = dn ∨ t = '.' :: dn)) →
      (extract_version ⟨dx ++ ('.' :: (dy ++ ('.' :: (dz ++ ('-' :: (lab ++ t))))))⟩
        none).map PyVersion.is_prerelease = some true) ∧
    (∀ (dx dy dz : List Char),
      dx ≠ [] → (∀ c ∈ dx, isDigitChar c = true) →
      dy ≠ [] → (∀ c ∈ dy, isDigitChar c = true) →
      dz ≠ [] → (∀ c ∈ dz, isDigitChar c = true) →
      (extract_version ⟨dx ++ ('.' :: (dy ++ ('.' :: dz)))⟩ none).map
        PyVersion.is_prerelease = some false) := by
  constructor
  · intro dx dy dz lab t hx hxd hy hyd hz hzd hlab ht
    have htfacts : ∀ c ∈ t, isWsChar c = false ∧ lowerChar c = c := by
      rcases ht with rfl | ⟨dn, hne, hdig, heq⟩
      · simp
      · rcases heq with rfl | rfl
        · exact fun c hc => ⟨digit_not_ws (hdig c hc), digit_lower (hdig c hc)⟩
        · intro c hc
          rcases List.mem_cons.mp hc with rfl | hc2
          · exact ⟨by decide, by decide⟩
          · exact ⟨digit_not_ws (hdig c hc2), digit_lower (hdig c hc2)⟩
    have hrw : ∀ c ∈ '-' :: (lab ++ t), isWsChar c = false := by
      refine List.forall_mem_cons.mpr ⟨by decide, ?_⟩
      exact List.forall_mem_append.mpr
        ⟨fun c h2 => (preLabel_chars hlab c h2).1, fun c h2 => (htfacts c h2).1⟩
    have hrl : ∀ c ∈ '-' :: (lab ++ t), lowerChar c = c := by
      refine List.forall_mem_cons.mpr ⟨by decide, ?_⟩
      exact List.forall_mem_append.mpr
        ⟨fun c h2 => (preLabel_chars hlab c h2).2, fun c h2 => (htfacts c h2).2⟩
    have hrh : ∀ c, ('-' :: (lab ++ t)).head? = some c →
        isDigitChar c = false ∧ ¬ c = '.' := by
      intro c hc
      simp only [List.head?_cons, Option.some.injEq] at hc
      subst hc
      exact ⟨by decide, by decide⟩
    have h1 := stripLeadV_release hx hxd hy hyd hz hzd hrw hrl hrh
    have h2 := parseFrom_preSeg 0
      [digitsToNat dx, digitsToNat dy, digitsToNat dz] lab t hlab ht
    show (stripLeadV _).map _ = _
    rw [h1, h2]
    simp [PyVersion.is_prerelease]
  · intro dx dy dz hx hxd hy hyd hz hzd
    have h1 := stripLeadV_release hx hxd hy hyd hz hzd
      (fun c hc => absurd hc (List.not_mem_nil c))
      (fun c hc => absurd hc (List.not_mem_nil c))
      (fun c hc => by simp at hc)
    rw [List.append_nil] at h1
    show (stripLeadV _).map _ = _
    rw [h1, parseFrom_nil]
    simp [PyVersion.is_prerelease]

/-- Witness for the amended C4: `2.3.0-rc1` is classified as a
prerelease, `1.2.0` is not. -/
theorem claim_C4_witness :
    (extract_version
      ⟨['2'] ++ ('.' :: (['3'] ++ ('.' :: (['0'] ++ ('-' :: (['r','c'] ++ ['1']))))))⟩
      none).map PyVersion.is_prerelease = some true ∧
    (extract_version ⟨['1'] ++ ('.' :: (['2'] ++ ('.' :: ['0'])))⟩ none).map
      PyVersion.is_prerelease = some false := by
  constructor
  · exact claim_C4.1 ['2'] ['3'] ['0'] ['r','c'] ['1'] (by decide) (by decide)
      (by decide) (by decide) (by decide) (by decide) (by decide)
      (Or.inr ⟨['1'], by decide, by decide, Or.inl rfl⟩)
  · exact claim_C4.2 ['1'] ['2'] ['0'] (by decide) (by decide) (by decide)
      (by decide) (by decide) (by decide)

/-! ## Claim theorems: `fetch_releases` pagination -/

theorem fetchPages_spec : ∀ (n : Nat) (api : Nat → List Release) (page : Nat)
    (acc : List Release) (fuel : Nat),
    (∀ i, i < n → api (page + i) ≠ []) → api (page + n) = [] → n < fuel →
    fetchPages api fuel page acc =
      some (acc ++ ((List.range n).map (fun i => api (page + i))).flatten) := by
  intro n
  induction n with
  | zero =>
    intro api page acc fuel h1 h2 hf
    obtain ⟨f, rfl⟩ : ∃ f, fuel = f + 1 := ⟨fuel - 1, by omega⟩
    simp only [fetchPages]
    rw [if_pos (by simpa using h2)]
    simp
  | succ n ih =>
    intro api page acc fuel h1 h2 hf
    obtain ⟨f, rfl⟩ : ∃ f, fuel = f + 1 := ⟨fuel - 1, by omega⟩
    simp only [fetchPages]
    rw [if_neg (by simpa using h1 0 (by omega))]
    rw [ih api (page + 1) (acc ++ api page) f
      (fun i hi => by
        rw [show page + 1 + i = page + (i + 1) by omega]
        exact h1 (i + 1) (by omega))
      (by rw [show page + 1 + n = page + (n + 1) by omega]; exact h2)
      (by omega)]
    have hmap : (List.range n).map (fun i => api (page + 1 + i)) =
        ((List.range n).map Nat.succ).map (fun i => api (page + i)) := by
      rw [List.map_map]
      exact List.map_congr_left (fun i _ => congrArg api (by omega))
    rw [List.range_succ_eq_map, List.map_cons, List.flatten_cons, hmap]
    simp [List.append_assoc]

theorem fetchPages_no_empty (api : Nat → List Release) :
    ∀ (fuel page : Nat) (acc : List Release), (∀ i, page ≤ i → api i ≠ []) →
    fetchPages api fuel page acc = none := by
  intro fuel
  induction fuel with
  | zero => intro page acc h; rfl
  | succ fuel ih =>
    intro page acc h
    simp only [fetchPages]
    rw [if_neg (by simpa using h page (Nat.le_refl _))]
    exact ih (page + 1) (acc ++ api page) (fun i hi => h i (by omega))

/-- **C6**: the pagination loop starts at page 1 and stops exactly at
the first empty page: if pages `1..n` are non-empty and page `n+1` is
empty, then for EVERY fuel bound above `n` (there is no defensive page
cap in the code) the fetch terminates with the concatenation, in page
order, of pages `1..n`; and conversely, when no page is ever empty the
loop never stops of its own accord (any amount of fuel is exhausted
with no result). -/
theorem claim_C6 :
    (∀ (api : Nat → List Release) (n fuel : Nat),
      (∀ i, 1 ≤ i → i ≤ n → api i ≠ []) → api (n + 1) = [] → n < fuel →
      fetch_releases api fuel =
        some (((List.range n).map (fun i => api (i + 1))).flatten)) ∧
    (∀ (api : Nat → List Release) (fuel : Nat),
      (∀ i, 1 ≤ i → api i ≠ []) → fetch_releases api fuel = none) := by
  constructor
  · intro api n fuel h1 h2 hf
    unfold fetch_releases
    rw [fetchPages_spec n api 1 [] fuel
      (fun i hi => by
        rw [show (1 : Nat) + i = i + 1 by omega]
        exact h1 (i + 1) (by omega) (by omega))
      (by rw [show (1 : Nat) + n = n + 1 by omega]; exact h2) hf]
    rw [List.nil_append]
    rw [show (List.range n).map (fun i => api (1 + i)) =
      (List.range n).map (fun i => api (i + 1)) from
      List.map_congr_left (fun i _ => congrArg api (by omega))]
  · intro api fuel h
    exact fetchPages_no_empty api fuel 1 [] (fun i hi => h i hi)

/-- Witness for C6: one non-empty page then an empty page; with any
sufficient fuel (here 5) the fetch returns exactly page 1. -/
theorem claim_C6_witness :
    fetch_releases
      (fun p => if p = 1 then [⟨some "t1", some "2024-01-01T00:00:00Z"⟩] else []) 5 =
      some [⟨some "t1", some "2024-01-01T00:00:00Z"⟩] :=
  (claim_C6.1 (fun p => if p = 1 then [⟨some "t1", some "2024-01-01T00:00:00Z"⟩] else [])
    1 5
    (fun i hi1 hi2 => by
      have : i = 1 := by omega
      subst this
      simp)
    (by simp) (by omega)).trans (by decide)

/-! ## Claim theorems: `save_to_file` -/

theorem digitCharOf_digit (k : Nat) : isDigitChar (digitCharOf k) = true := by
  unfold digitCharOf
  split <;> decide

theorem natDigitsF_digits : ∀ (f n : Nat), ∀ c ∈ natDigitsF f n, isDigitChar c = true := by
  intro f
  induction f with
  | zero => intro n c hc; simp [natDigitsF] at hc
  | succ f ih =>
    intro n c hc
    simp only [natDigitsF] at hc
    by_cases h : n < 10
    · rw [if_pos h] at hc
      simp only [List.mem_singleton] at hc
      subst hc
      exact digitCharOf_digit n
    · rw [if_neg h] at hc
      rcases List.mem_append.mp hc with h1 | h2
      · exact ih _ c h1
      · simp only [List.mem_singleton] at h2
        subst h2
        exact digitCharOf_digit _

theorem newline_not_mem_padNum (w n : Nat) : ('\n' : Char) ∉ padNum w n := by
  intro h
  rcases List.mem_append.mp h with h1 | h2
  · exact absurd (List.eq_of_mem_replicate h1) (by decide)
  · exact absurd (natDigitsF_digits _ _ _ h2) (by decide)

theorem dateIso_data (d : PyDate) : (dateIso d).data =
    padNum 4 d.year ++ '-' :: padNum 2 d.month ++ '-' :: padNum 2 d.day := rfl

theorem count_newline_dateIso (d : PyDate) : (dateIso d).data.count '\n' = 0 := by
  rw [dateIso_data, List.count_eq_zero]
  intro h
  simp only [List.mem_append, List.mem_cons] at h
  rcases h with (h1 | h2 | h3) | (h4 | h5)
  · exact newline_not_mem_padNum _ _ h1
  · exact absurd h2 (by decide)
  · exact newline_not_mem_padNum _ _ h3
  · exact absurd h4 (by decide)
  · exact newline_not_mem_padNum _ _ h5

theorem entryLine_count {e : String × PyDate} (h : ('\n' : Char) ∉ e.1.data) :
    (entryLine e).data.count '\n' = 1 := by
  simp [entryLine, String.data_append, List.count_append,
    List.count_eq_zero.mpr h, count_newline_dateIso]

/-- The writer's fold at the character level: old content is gone and
the result is the concatenation of the entry lines. -/
theorem save_to_file_data (rs : List (String × PyDate)) :
    ∀ a : String, (rs.foldl (fun acc e => acc ++ entryLine e) a).data =
      a.data ++ (rs.map (fun e => (entryLine e).data)).flatten := by
  induction rs with
  | nil => intro a; simp
  | cons e rs ih =>
    intro a
    simp only [List.foldl_cons, List.map_cons, List.flatten_cons]
    rw [ih (a ++ entryLine e)]
    simp [String.data_append, List.append_assoc]

/-- **C8**: the writer truncates whatever was in the file (the result
does not depend on the old content), writes exactly one line
`"<tag>, <date>"` per entry — each newline-terminated, the date in
`YYYY-MM-DD` form via `entryLine`, no header or trailing metadata: the
content is exactly the concatenation of the entry lines, with one
newline per entry — and for the empty sequence the file is created
empty. -/
theorem claim_C8 :
    (∀ old rs, (save_to_file old rs).data =
      (rs.map (fun e => (entryLine e).data)).flatten) ∧
    (∀ old rs, (∀ e ∈ rs, ('\n' : Char) ∉ e.1.data) →
      (save_to_file old rs).data.count '\n' = rs.length) ∧
    (∀ old, save_to_file old [] = "") ∧
    (∀ old old2 rs, save_to_file old rs = save_to_file old2 rs) := by
  have hdata : ∀ old rs, (save_to_file old rs).data =
      (rs.map (fun e => (entryLine e).data)).flatten := by
    intro old rs
    have := save_to_file_data rs ""
    simpa [save_to_file] using this
  refine ⟨hdata, ?_, fun old => rfl, fun old old2 rs => rfl⟩
  intro old rs h
  rw [hdata, List.count_flatten]
  induction rs with
  | nil => simp
  | cons e rs ih =>
    simp only [List.map_cons, List.sum_cons, List.length_cons]
    rw [entryLine_count (h e (by simp))]
    have := ih (fun x hx => h x (by simp [hx]))
    omega

/-- Witness for C8's line count at a concrete entry list. -/
theorem claim_C8_witness :
    (save_to_file "old junk" [("v1.2.0", ⟨2024, 2, 1⟩),
      ("v1.3.0", ⟨2024, 3, 1⟩)]).data.count '\n' = 2 :=
  claim_C8.2.1 "old junk" [("v1.2.0", ⟨2024, 2, 1⟩), ("v1.3.0", ⟨2024, 3, 1⟩)]
    (by decide)

/-! ## Claim theorems: `parse_github_url` -/

